import Mathlib

/-!
Verification of the rust-text-editor core (`src/editor.rs`) against its
natural-language specification.

The Rust code is shallowly embedded: bytes are `Nat`s, byte buffers are
`List Nat`, stateful methods of `Editor` become functions `Editor → Editor`.
The modules `row.rs` and `syntax.rs` are not present in the sources, so the
`Row` data (byte ↔ render-column maps, highlight states) is modelled from the
specification; every definition taken from `editor.rs` cites the function it
translates.
-/

namespace TextEditor

/-! ## Input decoder (`Editor::loop_until_keypress`, editor.rs lines 214-268) -/

/-- Arrow keys (`enum AKey`). -/
inductive AKey where
  | left
  | right
  | up
  | down
deriving DecidableEq, Repr

/-- Page keys (`enum PageKey`). -/
inductive PageKey where
  | up
  | down
deriving DecidableEq, Repr

/-- Logical input keys (`enum Key`). -/
inductive Key where
  | Arrow (k : AKey)
  | CtrlArrow (k : AKey)
  | Page (k : PageKey)
  | Home
  | End
  | Delete
  | Escape
  | Char (b : Nat)
deriving DecidableEq, Repr

/-- The final `match (c, d)` of the `<ESC>[<digit>` branch of
`loop_until_keypress` (editor.rs lines 242-253): `c` and `d` are the two
bytes that remain after the optional `1;` modifier prefix has been consumed,
`none` standing for an exhausted input. Arms are in source order. -/
def matchSeqTail (c d : Option Nat) : Key :=
  match c, d with
  | some c, some d =>
    if (c = 49 ∨ c = 55) ∧ d = 126 then Key.Home
    else if (c = 52 ∨ c = 56) ∧ d = 126 then Key.End
    else if c = 51 ∧ d = 126 then Key.Delete
    else if c = 53 ∧ d = 126 then Key.Page PageKey.up
    else if c = 54 ∧ d = 126 then Key.Page PageKey.down
    else if c = 53 ∧ d = 65 then Key.CtrlArrow AKey.up
    else if c = 53 ∧ d = 66 then Key.CtrlArrow AKey.down
    else if c = 53 ∧ d = 67 then Key.CtrlArrow AKey.right
    else if c = 53 ∧ d = 68 then Key.CtrlArrow AKey.left
    else Key.Escape
  | _, _ => Key.Escape

/-- The `match (b, bytes.next())` of `loop_until_keypress` for a second byte
`b` equal to `'['` (91) or `'O'` (79), with `s` the bytes after `b`
(editor.rs lines 227-260). Arms are in source order; 65-68 are `A`-`D`,
72 = `H`, 70 = `F`, 48-56 are `0`-`8`, 97-100 are `a`-`d`, 59 = `;`. -/
def escBracket (b : Nat) (s : List Nat) : Key :=
  match s with
  | [] => Key.Escape
  | c :: s2 =>
    if b = 91 ∧ c = 65 then Key.Arrow AKey.up
    else if b = 91 ∧ c = 66 then Key.Arrow AKey.down
    else if b = 91 ∧ c = 67 then Key.Arrow AKey.right
    else if b = 91 ∧ c = 68 then Key.Arrow AKey.left
    else if (b = 91 ∨ b = 79) ∧ c = 72 then Key.Home
    else if (b = 91 ∨ b = 79) ∧ c = 70 then Key.End
    else if b = 91 ∧ 48 ≤ c ∧ c ≤ 56 then
      -- `let mut d = bytes.next()`; if `(c, d) = ('1', ';')`, the modifier
      -- form re-reads both `c` and `d` (editor.rs lines 235-241).
      if c = 49 ∧ s2.head? = some 59 then matchSeqTail s2[1]? s2[2]?
      else matchSeqTail (some c) s2.head?
    else if b = 79 ∧ c = 97 then Key.CtrlArrow AKey.up
    else if b = 79 ∧ c = 98 then Key.CtrlArrow AKey.down
    else if b = 79 ∧ c = 99 then Key.CtrlArrow AKey.right
    else if b = 79 ∧ c = 100 then Key.CtrlArrow AKey.left
    else Key.Escape

/-- One invocation of the key decoder on the pending input bytes
(editor.rs lines 224-266). `none` models the blocking case in which no byte
is available yet; every received byte sequence produces a key, 27 = ESC. -/
def decode : List Nat → Option Key
  | [] => none
  | 27 :: rest =>
    some (match rest with
          | b :: rest2 => if b = 91 ∨ b = 79 then escBracket b rest2 else Key.Escape
          | [] => Key.Escape)
  | a :: _ => some (Key.Char a)

/-- The `(c, d)` pairs on which the `match (c, d)` of the
`<ESC>[<digit>` branch (editor.rs lines 242-253) yields a key other than
`Escape`; the conditions mirror the arms of `matchSeqTail` one for one. -/
def matchSeqTailRecognized (c d : Option Nat) : Bool :=
  match c, d with
  | some c, some d =>
    if (c = 49 ∨ c = 55) ∧ d = 126 then true
    else if (c = 52 ∨ c = 56) ∧ d = 126 then true
    else if c = 51 ∧ d = 126 then true
    else if c = 53 ∧ d = 126 then true
    else if c = 54 ∧ d = 126 then true
    else if c = 53 ∧ d = 65 then true
    else if c = 53 ∧ d = 66 then true
    else if c = 53 ∧ d = 67 then true
    else if c = 53 ∧ d = 68 then true
    else false
  | _, _ => false

/-- The escape continuations that `loop_until_keypress` recognizes as a key
other than `Escape` after `ESC` and a second byte `b` equal to `'['` or
`'O'`: arrows, Home/End, the digit forms (with the optional `1;` modifier
prefix re-read) and the `O a`-`O d` Ctrl-arrows. -/
def escRecognized (b : Nat) (s : List Nat) : Bool :=
  match s with
  | [] => false
  | c :: s2 =>
    if b = 91 ∧ c = 65 then true
    else if b = 91 ∧ c = 66 then true
    else if b = 91 ∧ c = 67 then true
    else if b = 91 ∧ c = 68 then true
    else if (b = 91 ∨ b = 79) ∧ c = 72 then true
    else if (b = 91 ∨ b = 79) ∧ c = 70 then true
    else if b = 91 ∧ 48 ≤ c ∧ c ≤ 56 then
      if c = 49 ∧ s2.head? = some 59 then matchSeqTailRecognized s2[1]? s2[2]?
      else matchSeqTailRecognized (some c) s2.head?
    else if b = 79 ∧ c = 97 then true
    else if b = 79 ∧ c = 98 then true
    else if b = 79 ∧ c = 99 then true
    else if b = 79 ∧ c = 100 then true
    else false

/-! ## Size formatting (`format_size`, editor.rs lines 132-143) -/

/-- Fuel-based binary length of a natural number (the fuel makes the
recursion structural so that the definition evaluates in the kernel). -/
def bitLenAux : Nat → Nat → Nat
  | 0, _ => 0
  | fuel + 1, n => if n = 0 then 0 else bitLenAux fuel (n / 2) + 1

/-- Number of binary digits of `n` (0 for 0). -/
def bitLen (n : Nat) : Nat := bitLenAux n n

/-- `u64::leading_zeros` for a value `n < 2^64`. -/
def leading_zeros64 (n : Nat) : Nat := 64 - bitLen n

/-- The `{:02}` format specifier applied to a value below 100: pad with a
leading zero to two digits. -/
def pad2 (k : Nat) : String := if k < 10 then "0" ++ toString k else toString k

/-- Empty string, the out-of-bounds default for the unit table (the index
stays in bounds for every 64-bit value). -/
def noUnit : String := ""

/-- The unit-letter byte string `b" kMGTPEZ"`, one string per byte. -/
def sizeUnits : List String := [" ", "k", "M", "G", "T", "P", "E", "Z"]

/-- `format_size` (editor.rs lines 132-143): pretty-format a size in bytes.
`i` is computed from the leading zeros of `n` and `q` holds the size scaled
by 100 so that the two decimal places come out of an integer division.
`100 * n` is a u64 multiplication, so it is reduced mod `2 ^ 64`
(release-mode wrapping; a debug build would panic on the overflow), while
`1024 << ((i - 1) * 10)` — written `1024 * 2 ^ ((i - 1) * 10)` — never
exceeds `2 ^ 60` because `i ≤ 6` for a 64-bit value. -/
def format_size (n : Nat) : String :=
  if n < 1024 then toString n ++ "B"
  else
    let i := (64 - leading_zeros64 n + 9) / 10 - 1
    let q := 100 * n % 2 ^ 64 / (1024 * 2 ^ ((i - 1) * 10))
    toString (q / 100) ++ "." ++ pad2 (q % 100) ++ sizeUnits.getD i noUnit ++ "B"

/-! ## Rows and highlight state

The modules `row.rs` and `syntax.rs` of this repository are not among the
sources; only `editor.rs` (their caller) is. The row data and the highlight
state machine below are therefore modelled from the specification (sections
3, 4.1 and 4.2), faithful to its words; everything that follows them is
translated from `editor.rs`. -/

/-- Modelled from the spec: the carried tokenizer state entering and leaving
a row — `Normal`, `InString(quote)` or a multi-line comment
(`HlState`, re-exported by `row.rs` which is missing from the sources). -/
inductive HlState where
  | normal
  | inString (quote : Nat)
  | inMLComment
deriving DecidableEq, Repr

/-- Modelled from the spec: the immutable rule set selected by file
extension — the delimiters that drive cross-row state transitions
(`syntax.rs::Conf`, missing from the sources; keyword lists and flags are
omitted because they never affect the carried state). -/
structure SynConf where
  ml_comment_start : List Nat := []
  ml_comment_end : List Nat := []
  quotes : List Nat := []
deriving DecidableEq, Repr

/-- Modelled from the spec: left-to-right scan of one row's bytes tracking
transitions between Normal / InString / InMultilineComment; an unterminated
string or comment at end-of-row propagates its state to the next row. The
fuel argument (always called with the byte count) keeps the recursion
structural; 92 is the backslash escaping the next byte inside a string. -/
def hlScanAux (conf : SynConf) : Nat → HlState → List Nat → HlState
  | 0, st, _ => st
  | _ + 1, st, [] => st
  | fuel + 1, HlState.normal, b :: bs =>
    if conf.ml_comment_start ≠ [] ∧ conf.ml_comment_start.isPrefixOf (b :: bs) then
      hlScanAux conf fuel HlState.inMLComment ((b :: bs).drop conf.ml_comment_start.length)
    else if b ∈ conf.quotes then hlScanAux conf fuel (HlState.inString b) bs
    else hlScanAux conf fuel HlState.normal bs
  | fuel + 1, HlState.inMLComment, b :: bs =>
    if conf.ml_comment_end ≠ [] ∧ conf.ml_comment_end.isPrefixOf (b :: bs) then
      hlScanAux conf fuel HlState.normal ((b :: bs).drop conf.ml_comment_end.length)
    else hlScanAux conf fuel HlState.inMLComment bs
  | fuel + 1, HlState.inString q, b :: bs =>
    if b = q then hlScanAux conf fuel HlState.normal bs
    else if b = 92 then hlScanAux conf fuel (HlState.inString q) (bs.drop 1)
    else hlScanAux conf fuel (HlState.inString q) bs

/-- Modelled from the spec: the outgoing highlight state of a row is a pure
function of the incoming state, the row's bytes and the rules. -/
def hlScan (conf : SynConf) (st : HlState) (bytes : List Nat) : HlState :=
  hlScanAux conf bytes.length st bytes

/-- Modelled from the spec: one document row — its raw bytes (no embedded
newline) and its outgoing highlight state. The derived render data
(`cx2rx`, `render`) is recomputed on demand from `chars` below instead of
being cached in the structure. -/
structure Row where
  chars : List Nat
  hl_state : HlState := HlState.normal
deriving DecidableEq, Repr

/-- `Row::new`: a row with byte content and default highlight state. -/
def Row.new (chars : List Nat) : Row := { chars := chars }

/-- `Row::update(syntax, incoming_state, tab_stop)`: recompute the row's
derived data and store and return the new outgoing state (modelled from the
spec, section 4.1; the tab stop only affects the render, not the state). -/
def Row.update (r : Row) (conf : SynConf) (hl : HlState) (_ts : Nat) : Row × HlState :=
  let out := hlScan conf hl r.chars
  ({ r with hl_state := out }, out)

/-- Modelled from the spec: a UTF-8 continuation byte (`10xxxxxx`). -/
def isCont (b : Nat) : Bool := decide (128 ≤ b ∧ b < 192)

/-- Modelled from the spec: running render column while walking the bytes —
a continuation byte adds no column, a tab (9) advances to the next multiple
of the tab stop, any other byte adds one column. -/
def cx2rxAux (ts rx : Nat) : List Nat → List Nat
  | [] => [rx]
  | b :: bs =>
    rx :: cx2rxAux ts (if isCont b then rx else if b = 9 then rx + (ts - rx % ts) else rx + 1) bs

/-- Modelled from the spec: `cx2rx` maps each byte index `0..=len` to its
render column (`cx2rx.len() == bytes.len() + 1`, non-decreasing). -/
def cx2rx (ts : Nat) (chars : List Nat) : List Nat := cx2rxAux ts 0 chars

/-- Modelled from the spec: the byte index of the character whose first
byte renders at column `rx` (0 when no such column exists, where the Rust
lookup table would be out of bounds). -/
def rx2cx (ts : Nat) (chars : List Nat) (rx : Nat) : Nat :=
  ((List.range chars.length).find?
    (fun i => decide ((cx2rx ts chars).getD i 0 = rx) && ! isCont (chars.getD i 0))).getD 0

/-- `Row::get_char_size(render_column)`: the byte length of the UTF-8
character whose first byte begins at the byte index corresponding to that
render column — one leading byte plus its continuation bytes (modelled from
the spec, section 4.1). -/
def Row.get_char_size (r : Row) (ts rx : Nat) : Nat :=
  let cx := rx2cx ts r.chars rx
  1 + ((r.chars.drop (cx + 1)).takeWhile isCont).length

/-! ## Editor state and edit operations (`editor.rs`) -/

/-- The loop body of `Editor::update_row` (editor.rs lines 306-317): update
rows in order starting from a carried state; stop after the first row whose
new outgoing state equals its previous one (or immediately if
`ignore_following_rows`), or when the rows are exhausted. -/
def updateRowsFrom (conf : SynConf) (ts : Nat) (hl : HlState) (ignore : Bool) :
    List Row → List Row
  | [] => []
  | r :: rs =>
    let p := r.update conf hl ts
    if ignore ∨ p.2 = r.hl_state then p.1 :: rs
    else p.1 :: updateRowsFrom conf ts p.2 ignore rs

/-- `Editor::update_row(y, ignore_following_rows)` on the row list
(editor.rs lines 306-317): the initial state is row `y - 1`'s stored
outgoing state, or `Normal` for the first row. -/
def update_row_list (conf : SynConf) (ts : Nat) (rows : List Row) (y : Nat) (ignore : Bool) :
    List Row :=
  let hl0 := if y > 0 then (rows[y - 1]?.map Row.hl_state).getD HlState.normal
             else HlState.normal
  rows.take y ++ updateRowsFrom conf ts hl0 ignore (rows.drop y)

/-- The loop body of `Editor::update_all_rows` (editor.rs lines 320-325). -/
def updateAllFrom (conf : SynConf) (ts : Nat) (hl : HlState) : List Row → List Row
  | [] => []
  | r :: rs =>
    let p := r.update conf hl ts
    p.1 :: updateAllFrom conf ts p.2 rs

/-- `struct CursorState` (editor.rs lines 60-70): `x` indexes bytes, `y`
rows; `roff`/`coff` are the scroll offsets. -/
structure CursorState where
  x : Nat := 0
  y : Nat := 0
  roff : Nat := 0
  coff : Nat := 0
deriving DecidableEq, Repr

/-- Rust's `clamp(lo, hi)` (the call sites below always have `lo ≤ hi`). -/
def rustClamp (v lo hi : Nat) : Nat := if v < lo then lo else if hi < v then hi else v

/-- `CursorState::move_to_next_line` (editor.rs lines 73-76). -/
def CursorState.move_to_next_line (c : CursorState) : CursorState :=
  { c with y := c.y + 1, x := 0 }

/-- `CursorState::scroll(rx, screen_rows, screen_cols)` (editor.rs lines
80-83); natural-number subtraction is Rust's `saturating_sub`. -/
def CursorState.scroll (c : CursorState) (rx screen_rows screen_cols : Nat) : CursorState :=
  { c with roff := rustClamp c.roff (c.y - (screen_rows - 1)) c.y,
           coff := rustClamp c.coff (rx - (screen_cols - 1)) rx }

/-- The fields of `struct Editor` (editor.rs lines 88-124) that the edit
operations touch: cursor, rows, dirty flag, accumulated byte count,
optional file name, the per-extension rule set with the configured tab
stop, and the screen height used by `draw_rows`. Render-geometry fields
(`ln_pad`, `window_width`, `screen_cols`), the prompt mode, the status
message, the quit counter and the terminal handle never affect these
operations and are omitted. -/
structure Editor where
  cursor : CursorState := {}
  rows : List Row := []
  dirty : Bool := false
  conf : SynConf := {}
  tab_stop : Nat := 4
  screen_rows : Nat := 0
  n_bytes : Nat := 0
  file_name : Option String := none
deriving DecidableEq, Repr

/-- In-place update of one list element (`Vec` index assignment). -/
def listModify (f : α → α) : Nat → List α → List α
  | _, [] => []
  | 0, a :: as => f a :: as
  | n + 1, a :: as => a :: listModify f n as

/-- `Vec::insert(i, a)` (appends when `i` is past the end, where Rust would
panic; the call sites keep `i` in bounds). -/
def listInsertAt (i : Nat) (a : α) (l : List α) : List α := l.take i ++ a :: l.drop i

/-- `Editor::current_row` (editor.rs line 175). -/
def Editor.current_row (e : Editor) : Option Row := e.rows[e.cursor.y]?

/-- `Editor::is_empty` (editor.rs line 498): at most one row and zero
accumulated bytes. -/
def Editor.is_empty (e : Editor) : Bool := decide (e.rows.length ≤ 1 ∧ e.n_bytes = 0)

/-- The welcome-banner condition of `Editor::draw_rows` for the blank line
`i` (editor.rs line 512): the document is empty and `i` is a third of the
way down the screen. -/
def Editor.welcome_condition (e : Editor) (i : Nat) : Bool :=
  e.is_empty && decide (i = e.screen_rows / 3)

/-- `Editor::update_row` acting on the whole state (editor.rs lines
306-317). -/
def Editor.update_row (e : Editor) (y : Nat) (ignore : Bool) : Editor :=
  { e with rows := update_row_list e.conf e.tab_stop e.rows y ignore }

/-- `Editor::update_all_rows` (editor.rs lines 320-325). -/
def Editor.update_all_rows (e : Editor) : Editor :=
  { e with rows := updateAllFrom e.conf e.tab_stop HlState.normal e.rows }

/-- `Editor::update_cursor_x_position` (editor.rs lines 206-208): clamp `x`
to the current row's length. -/
def Editor.update_cursor_x_position (e : Editor) : Editor :=
  { e with cursor :=
      { e.cursor with x := min e.cursor.x ((e.current_row.map (fun r => r.chars.length)).getD 0) } }

/-- `usize::MAX`. -/
def usizeMax : Nat := 2 ^ 64 - 1

/-- The `AKey::Left` arms of `Editor::move_cursor` followed by
`update_cursor_x_position` (editor.rs lines 182-201): step back one
character, or wrap to the end of the previous line. -/
def Editor.move_cursor_left (e : Editor) : Editor :=
  let e :=
    match e.current_row with
    | some row =>
      if e.cursor.x > 0 then
        { e with cursor :=
            { e.cursor with
              x := e.cursor.x -
                row.get_char_size e.tab_stop
                  ((cx2rx e.tab_stop row.chars).getD e.cursor.x 0 - 1) } }
      else if e.cursor.y > 0 then
        { e with cursor := { e.cursor with y := e.cursor.y - 1, x := usizeMax } }
      else e
    | none =>
      if e.cursor.y > 0 then
        { e with cursor := { e.cursor with y := e.cursor.y - 1, x := usizeMax } }
      else e
  e.update_cursor_x_position

/-- `Editor::insert_byte` (editor.rs lines 329-341): insert at the cursor,
or append a new row when the cursor is past the last row; then re-highlight,
advance `x`, count the byte and set dirty. -/
def Editor.insert_byte (e : Editor) (c : Nat) : Editor :=
  let e :=
    if e.cursor.y < e.rows.length then
      { e with rows := (listModify (fun r => { r with chars := listInsertAt e.cursor.x c r.chars })
          e.cursor.y e.rows) }
    else
      { e with rows := e.rows ++ [Row.new [c]] }
  let e := e.update_row e.cursor.y false
  { e with cursor := { e.cursor with x := e.cursor.x + 1 },
           n_bytes := e.n_bytes + 1, dirty := true }

/-- `Editor::insert_new_line` (editor.rs lines 345-359): at `x = 0` insert
an empty row before the current one, otherwise split the current row at
`x`; then move the cursor to the start of the new line and set dirty. -/
def Editor.insert_new_line (e : Editor) : Editor :=
  let step :=
    if e.cursor.x = 0 then (e.cursor.y, ([] : List Nat), e)
    else
      let row := (e.rows[e.cursor.y]?).getD (Row.new [])
      let new_chars := row.chars.drop e.cursor.x
      let e2 := { e with rows := (listModify (fun r => { r with chars := r.chars.take e.cursor.x })
          e.cursor.y e.rows) }
      let e2 := e2.update_row e.cursor.y false
      (e.cursor.y + 1, new_chars, e2)
  let e2 := step.2.2
  let e2 := { e2 with rows := listInsertAt step.1 (Row.new step.2.1) e2.rows }
  let e2 := e2.update_row step.1 false
  { e2 with cursor := e2.cursor.move_to_next_line, dirty := true }

/-- `Editor::delete_char` (editor.rs lines 364-390), in source order: with
`x > 0` remove one character before the cursor, re-highlight, move `x`
back, set the dirty flag from `is_empty` and the file name, then decrement
`n_bytes`; with `x = 0` on an interior row merge the row into the previous
one; past the last row, behave like the left arrow key. -/
def Editor.delete_char (e : Editor) : Editor :=
  if e.cursor.x > 0 then
    let row := (e.rows[e.cursor.y]?).getD (Row.new [])
    let n := row.get_char_size e.tab_stop ((cx2rx e.tab_stop row.chars).getD e.cursor.x 0 - 1)
    let e := { e with rows := (listModify
        (fun r => { r with chars := r.chars.take (e.cursor.x - n) ++ r.chars.drop e.cursor.x })
        e.cursor.y e.rows) }
    let e := e.update_row e.cursor.y false
    let e := { e with cursor := { e.cursor with x := e.cursor.x - n } }
    let e := { e with dirty := if e.is_empty then e.file_name.isSome else true }
    { e with n_bytes := e.n_bytes - n }
  else if e.cursor.y < e.rows.length ∧ e.cursor.y > 0 then
    let row := (e.rows[e.cursor.y]?).getD (Row.new [])
    let e := { e with rows := e.rows.take e.cursor.y ++ e.rows.drop (e.cursor.y + 1) }
    let prevLen := ((e.rows[e.cursor.y - 1]?).getD (Row.new [])).chars.length
    let e := { e with cursor := { e.cursor with x := prevLen } }
    let e := { e with rows := (listModify (fun r => { r with chars := r.chars ++ row.chars })
        (e.cursor.y - 1) e.rows) }
    let e := e.update_row (e.cursor.y - 1) true
    let e := e.update_row e.cursor.y false
    let e := { e with dirty := true }
    { e with cursor := { e.cursor with y := e.cursor.y - 1 } }
  else if e.cursor.y = e.rows.length then
    e.move_cursor_left
  else e

/-- `Editor::delete_current_row` (editor.rs lines 392-399): clear the row's
bytes, re-highlight, move to the next line and fold the cleared row away
with one backward delete. -/
def Editor.delete_current_row (e : Editor) : Editor :=
  if e.cursor.y < e.rows.length then
    let e := { e with rows := (listModify (fun r => { r with chars := [] }) e.cursor.y e.rows) }
    let e := e.update_row e.cursor.y false
    let e := { e with cursor := e.cursor.move_to_next_line }
    e.delete_char
  else e

/-- `Editor::duplicate_current_row` (editor.rs lines 401-411): clone the
current row right below itself, counting its bytes and setting dirty. -/
def Editor.duplicate_current_row (e : Editor) : Editor :=
  match e.current_row with
  | some row =>
    let new_row := Row.new row.chars
    let e := { e with n_bytes := e.n_bytes + new_row.chars.length }
    let e := { e with rows := listInsertAt (e.cursor.y + 1) new_row e.rows }
    let e := e.update_row (e.cursor.y + 1) false
    { e with dirty := true }
  | none => e

/-! ## Loading and saving (`Editor::load`, `Editor::save`) -/

/-- Split a byte stream at every newline, keeping empty segments (`k`
newlines give `k + 1` segments). -/
def splitOnNl : List Nat → List (List Nat)
  | [] => [[]]
  | b :: s =>
    if b = 10 then [] :: splitOnNl s
    else
      match splitOnNl s with
      | r :: rs => (b :: r) :: rs
      | [] => [[b]]

/-- `BufReader::split(b'\n')` as used by `Editor::load` (editor.rs line
423): segments between newlines, no trailing empty segment when the stream
ends with a newline, no segment at all for the empty stream. -/
def bufSplit (s : List Nat) : List (List Nat) :=
  if s = [] then []
  else if s.getLast? = some 10 then (splitOnNl s).dropLast
  else splitOnNl s

/-- The trailing-byte test of `Editor::load` (editor.rs lines 429-431): the
file is re-opened, the position is moved to `SeekFrom::End(0)` — that is,
to offset `len`, the end of the file — and one byte is read there;
`map_or(true, |b| b == b'\n')` then treats an absent byte like a newline.
Reading at offset `len` always yields `none`. -/
def lastByteCheck (s : List Nat) : Bool :=
  match s[s.length]? with
  | none => true
  | some b => b == 10

/-- `Editor::load` on a found file (editor.rs lines 421-438): push one row
per segment, append an empty row when the trailing-byte test holds,
re-highlight everything and recompute `n_bytes` as the sum of the row
lengths. -/
def Editor.load (e : Editor) (s : List Nat) : Editor :=
  let e := { e with rows := e.rows ++ (bufSplit s).map Row.new }
  let e := if lastByteCheck s then { e with rows := e.rows ++ [Row.new []] } else e
  let e := e.update_all_rows
  { e with n_bytes := (e.rows.map (fun r => r.chars.length)).sum }

/-- The byte stream written by `Editor::save` (editor.rs lines 446-459):
each row's bytes, with a single newline between consecutive rows and none
after the last. -/
def save_rows : List (List Nat) → List Nat
  | [] => []
  | [r] => r
  | r :: rs => r ++ 10 :: save_rows rs

/-- `Editor::save` of the whole state, as the written byte stream. -/
def Editor.save_content (e : Editor) : List Nat := save_rows (e.rows.map Row.chars)

/-- The document of the C8 scenario: row 0 is `"ab"`, row 1 is `"cd"`, the
cursor sits at `(y = 1, x = 0)` and 4 bytes are accounted. -/
def abcdEditor : Editor :=
  { rows := [Row.new [97, 98], Row.new [99, 100]], cursor := { x := 0, y := 1 }, n_bytes := 4 }

/-! ## Theorems -/

/-- `bitLenAux fuel 0` is zero for every fuel. -/
theorem bitLenAux_zero (fuel : Nat) : bitLenAux fuel 0 = 0 := by
  cases fuel <;> simp [bitLenAux]

/-- With enough fuel, `bitLenAux` brackets a nonzero `n` between two
consecutive powers of two. -/
theorem bitLenAux_bounds (fuel : Nat) : ∀ n, n ≤ fuel → n ≠ 0 →
    2 ^ (bitLenAux fuel n - 1) ≤ n ∧ n < 2 ^ bitLenAux fuel n := by
  induction fuel with
  | zero => intro n h hn; omega
  | succ fuel ih =>
    intro n h hn
    rw [bitLenAux, if_neg hn]
    rcases Nat.lt_or_ge n 2 with h2 | h2
    · have : n = 1 := by omega
      subst this
      simp [bitLenAux, bitLenAux_zero]
    · have hhalf : n / 2 ≤ fuel := by omega
      have hhalf0 : n / 2 ≠ 0 := by omega
      obtain ⟨ih1, ih2⟩ := ih (n / 2) hhalf hhalf0
      have hb1 : 1 ≤ bitLenAux fuel (n / 2) := by
        by_contra hb
        have : bitLenAux fuel (n / 2) = 0 := by omega
        rw [this] at ih2
        simp at ih2
        omega
      constructor
      · have : 2 ^ (bitLenAux fuel (n / 2) + 1 - 1) = 2 * 2 ^ (bitLenAux fuel (n / 2) - 1) := by
          rw [← Nat.pow_succ']
          congr 1
          omega
        rw [this]
        omega
      · have : 2 ^ (bitLenAux fuel (n / 2) + 1) = 2 * 2 ^ bitLenAux fuel (n / 2) := by
          rw [← Nat.pow_succ']
        rw [this]
        omega

/-- `2 ^ (bitLen n - 1) ≤ n < 2 ^ bitLen n` for nonzero `n`. -/
theorem bitLen_bounds (n : Nat) (hn : n ≠ 0) :
    2 ^ (bitLen n - 1) ≤ n ∧ n < 2 ^ bitLen n :=
  bitLenAux_bounds n n le_rfl hn

/-- For `1024 ≤ n` with `100 * n` still below `2 ^ 64` (so that the scaled
u64 product does not wrap), `format_size` divides by the largest power of
1024 not exceeding `n` and keeps two truncated decimal digits. -/
theorem format_size_general (n : Nat) (h1 : 1024 ≤ n) (h2 : 100 * n < 2 ^ 64) :
    ∃ i, 1024 ^ i ≤ n ∧ n < 1024 ^ (i + 1) ∧
      format_size n = toString (100 * n / 1024 ^ i / 100) ++ "." ++
        pad2 (100 * n / 1024 ^ i % 100) ++ sizeUnits.getD i noUnit ++ "B" := by
  have hn : n ≠ 0 := by omega
  have h2n : n < 2 ^ 64 := by omega
  obtain ⟨hb1, hb2⟩ := bitLen_bounds n hn
  set B := bitLen n with hB
  have hB11 : 11 ≤ B := by
    by_contra hb
    have : B ≤ 10 := by omega
    have : (2 : Nat) ^ B ≤ 2 ^ 10 := Nat.pow_le_pow_right (by norm_num) this
    omega
  have hB64 : B ≤ 64 := by
    by_contra hb
    have h63 : 64 ≤ B - 1 := by omega
    have : (2 : Nat) ^ 64 ≤ 2 ^ (B - 1) := Nat.pow_le_pow_right (by norm_num) h63
    omega
  refine ⟨(B + 9) / 10 - 1, ?_, ?_, ?_⟩
  · have hexp : 10 * ((B + 9) / 10 - 1) ≤ B - 1 := by omega
    calc (1024 : Nat) ^ ((B + 9) / 10 - 1) = 2 ^ (10 * ((B + 9) / 10 - 1)) := by
          rw [pow_mul]; norm_num
      _ ≤ 2 ^ (B - 1) := Nat.pow_le_pow_right (by norm_num) hexp
      _ ≤ n := hb1
  · have hexp : B ≤ 10 * ((B + 9) / 10 - 1 + 1) := by omega
    calc n < 2 ^ B := hb2
      _ ≤ 2 ^ (10 * ((B + 9) / 10 - 1 + 1)) := Nat.pow_le_pow_right (by norm_num) hexp
      _ = 1024 ^ ((B + 9) / 10 - 1 + 1) := by rw [pow_mul]; norm_num
  · have hnot : ¬ n < 1024 := by omega
    have hidx : (64 - leading_zeros64 n + 9) / 10 - 1 = (B + 9) / 10 - 1 := by
      unfold leading_zeros64
      rw [← hB]
      omega
    have hpow : 1024 * 2 ^ (((B + 9) / 10 - 1 - 1) * 10) = 1024 ^ ((B + 9) / 10 - 1) := by
      have hge1 : 1 ≤ (B + 9) / 10 - 1 := by omega
      have h10 : (1024 : Nat) = 2 ^ 10 := by norm_num
      rw [h10, ← pow_add, ← pow_mul]
      congr 1
      omega
    have hmod : 100 * n % 2 ^ 64 = 100 * n := Nat.mod_eq_of_lt h2
    simp only [format_size, if_neg hnot, hidx, hpow, hmod]

/-- C9, amended: `format_size 1536` is `"1.50kB"`; for `n < 1024` the
output is the decimal value of `n` followed by `"B"`; and for `1024 ≤ n`
with the scaled u64 product `100 * n` still below `2 ^ 64` the output is
`n` divided by the largest unit boundary `1024 ^ i` not exceeding it, with
the fractional part truncated to exactly two decimal digits and the
matching unit letter appended (beyond that bound the product wraps and the
printed digits collapse, as the counterexample at `2 ^ 63` shows). -/
theorem format_size_spec :
    format_size 1536 = "1.50kB" ∧
    (∀ n, n < 1024 → format_size n = toString n ++ "B") ∧
    (∀ n, 1024 ≤ n → 100 * n < 2 ^ 64 →
      ∃ i, 1024 ^ i ≤ n ∧ n < 1024 ^ (i + 1) ∧
        format_size n = toString (100 * n / 1024 ^ i / 100) ++ "." ++
          pad2 (100 * n / 1024 ^ i % 100) ++ sizeUnits.getD i noUnit ++ "B") := by
  refine ⟨by decide, fun n h => ?_, fun n h1 h2 => format_size_general n h1 h2⟩
  simp only [format_size, if_pos h]

/-- C9, counterexample: at `n = 2 ^ 63` — a valid u64 byte count with
`1024 ≤ n` — the largest unit boundary not exceeding `n` is `1024 ^ 6` and
the claimed two-decimal truncation of `n / 1024 ^ 6` renders as
`"8.00EB"`, but the u64 product `100 * n` wraps to 0, so `format_size`
prints `"0.00EB"`. -/
theorem format_size_wraps_at_large_sizes :
    format_size (2 ^ 63) = "0.00EB" ∧
    (1024 : Nat) ^ 6 ≤ 2 ^ 63 ∧ 2 ^ 63 < (1024 : Nat) ^ 7 ∧
    toString (100 * 2 ^ 63 / 1024 ^ 6 / 100) ++ "." ++
      pad2 (100 * 2 ^ 63 / 1024 ^ 6 % 100) ++ sizeUnits.getD 6 noUnit ++ "B" = "8.00EB" ∧
    ("0.00EB" : String) ≠ "8.00EB" := by
  refine ⟨by decide, by decide, by decide, by decide, by decide⟩

/-- C9, witness: the small-size branch applied at 512, and the general
truncation statement applied at 1536 (where the unit index must be 1,
giving back the `"1.50kB"` rendering). -/
theorem format_size_spec_inst :
    (512 < 1024 ∧ format_size 512 = toString 512 ++ "B") ∧
    (1024 ≤ 1536 ∧ 100 * 1536 < 2 ^ 64 ∧ format_size 1536 = "1.50kB") := by
  refine ⟨⟨by decide, format_size_spec.2.1 512 (by decide)⟩, by decide, by decide, ?_⟩
  obtain ⟨i, hli, hui, heq⟩ := format_size_spec.2.2 1536 (by decide) (by decide)
  have hi : i = 1 := by
    rcases i with _ | _ | i2
    · norm_num at hui
    · rfl
    · exfalso
      have h2 : (1024 : Nat) ^ 2 ≤ 1024 ^ (i2 + 2) :=
        Nat.pow_le_pow_right (by norm_num) (by omega)
      have h3 := le_trans h2 hli
      norm_num at h3
  subst hi
  rw [heq]
  decide

/-- Any `(c, d)` pair outside the recognized table falls through every arm of
the final `match (c, d)` and yields `Escape`. -/
theorem matchSeqTailRec_false (c d : Option Nat)
    (hr : matchSeqTailRecognized c d = false) : matchSeqTail c d = Key.Escape := by
  rcases c with _ | c <;> rcases d with _ | d
  · rfl
  · rfl
  · rfl
  · simp only [matchSeqTailRecognized] at hr
    simp only [matchSeqTail]
    split_ifs at hr with h1 h2 h3 h4 h5 h6 h7 h8 h9 <;>
      first
      | exact absurd hr (by decide)
      | rw [if_neg h1, if_neg h2, if_neg h3, if_neg h4, if_neg h5, if_neg h6, if_neg h7,
            if_neg h8, if_neg h9]

set_option maxHeartbeats 4000000 in
/-- Any continuation outside the recognized table falls through every arm of
the escape-sequence `match` and yields `Escape`. -/
theorem escRecognized_false (b : Nat) (s : List Nat)
    (hr : escRecognized b s = false) : escBracket b s = Key.Escape := by
  match s with
  | [] => rfl
  | c :: s2 =>
    simp only [escRecognized] at hr
    split_ifs at hr with h1 h2 h3 h4 h5 h6 h7 h8 h9 h10 h11 h12 <;>
      first
      | exact absurd hr (by decide)
      | (simp only [escBracket]
         rw [if_neg h1, if_neg h2, if_neg h3, if_neg h4, if_neg h5, if_neg h6, if_pos h7,
             if_pos h8]
         exact matchSeqTailRec_false _ _ hr)
      | (simp only [escBracket]
         rw [if_neg h1, if_neg h2, if_neg h3, if_neg h4, if_neg h5, if_neg h6, if_pos h7,
             if_neg h8]
         exact matchSeqTailRec_false _ _ hr)
      | (simp only [escBracket]
         rw [if_neg h1, if_neg h2, if_neg h3, if_neg h4, if_neg h5, if_neg h6, if_neg h7,
             if_neg h9, if_neg h10, if_neg h11, if_neg h12])

/-- C3, counterexample: decoding the bytes `ESC [ 5 ; 5 A` (27, 91, 53, 59,
53, 65) yields `Escape`, not the Ctrl-Up arrow the claim asserts: the decoder
re-reads a modifier only after the `1 ;` prefix, so `5 ; 5 A` falls through
to the default arm. -/
theorem decode_esc5semi5A_is_escape :
    decode [27, 91, 53, 59, 53, 65] = some Key.Escape ∧
    decode [27, 91, 53, 59, 53, 65] ≠ some (Key.CtrlArrow AKey.up) := by
  constructor
  · decide
  · decide

/-- C3, amended: the decoder maps `ESC [ 1 ; 5 <letter>` and
`ESC [ 5 <letter>` (letter among `A`/`B`/`C`/`D`) to the Ctrl-variant of the
corresponding arrow, while `ESC [ 5 ; 5 A` decodes to `Escape`; for every
digit modifier byte m, `ESC [ 1 ; m <byte>` decodes to the same key as
`ESC [ m <byte>`; and `ESC [ 3 ~` decodes to `Delete`. -/
theorem decode_ctrl_arrow_modifiers :
    (decode [27, 91, 49, 59, 53, 65] = some (Key.CtrlArrow AKey.up) ∧
     decode [27, 91, 49, 59, 53, 66] = some (Key.CtrlArrow AKey.down) ∧
     decode [27, 91, 49, 59, 53, 67] = some (Key.CtrlArrow AKey.right) ∧
     decode [27, 91, 49, 59, 53, 68] = some (Key.CtrlArrow AKey.left) ∧
     decode [27, 91, 53, 65] = some (Key.CtrlArrow AKey.up) ∧
     decode [27, 91, 53, 66] = some (Key.CtrlArrow AKey.down) ∧
     decode [27, 91, 53, 67] = some (Key.CtrlArrow AKey.right) ∧
     decode [27, 91, 53, 68] = some (Key.CtrlArrow AKey.left)) ∧
    decode [27, 91, 53, 59, 53, 65] = some Key.Escape ∧
    (∀ m l : Nat, 48 ≤ m → m ≤ 57 →
      decode [27, 91, 49, 59, m, l] = decode [27, 91, m, l]) ∧
    decode [27, 91, 51, 126] = some Key.Delete := by
  refine ⟨by decide, by decide, ?_, by decide⟩
  intro m l h1 h2
  interval_cases m <;> try rfl
  by_cases hl : l = 59 <;> simp [decode, escBracket, matchSeqTail, hl]

/-- C3, witness: the amended theorem applied at the digit modifier `5`
(byte 53) and letter `A` (byte 65). -/
theorem decode_ctrl_arrow_modifiers_inst :
    (48 ≤ 53 ∧ 53 ≤ 57) ∧
    decode [27, 91, 49, 59, 53, 65] = decode [27, 91, 53, 65] :=
  ⟨by decide, decode_ctrl_arrow_modifiers.2.2.1 53 65 (by decide) (by decide)⟩

/-- C4: every input beginning with `ESC` followed by `'['` or `'O'` decodes
to some key (no decode error is ever surfaced), and whenever its continuation
matches none of the recognized escape shapes the decoder returns `Escape`;
in particular `ESC [ Z` decodes to `Escape`. -/
theorem decode_unrecognized_is_escape :
    (∀ b s, (b = 91 ∨ b = 79) →
      (decode (27 :: b :: s)).isSome = true ∧
      (escRecognized b s = false → decode (27 :: b :: s) = some Key.Escape)) ∧
    decode [27, 91, 90] = some Key.Escape := by
  refine ⟨fun b s hb => ?_, by decide⟩
  have hd : decode (27 :: b :: s) = some (escBracket b s) := by
    simp [decode, hb]
  refine ⟨by rw [hd]; rfl, fun hr => ?_⟩
  rw [hd, escRecognized_false b s hr]

/-- C4, witness: the theorem applied to the unrecognized continuation
`ESC [ Z` (27, 91, 90). -/
theorem decode_unrecognized_is_escape_inst :
    (91 = 91 ∨ 91 = 79) ∧ escRecognized 91 [90] = false ∧
    decode [27, 91, 90] = some Key.Escape :=
  ⟨Or.inl rfl, by decide,
    (decode_unrecognized_is_escape.1 91 [90] (Or.inl rfl)).2 (by decide)⟩

/-- A row of `updateRowsFrom` is updated in place: its stored state becomes
the recomputed outgoing state. -/
theorem updateRowsFrom_stops (conf : SynConf) (ts : Nat) (l : List Row) :
    ∀ hl : HlState, l ≠ [] →
    ∃ k, 1 ≤ k ∧ k ≤ l.length ∧
      (updateRowsFrom conf ts hl false l).length = l.length ∧
      (∀ i, k ≤ i → (updateRowsFrom conf ts hl false l)[i]? = l[i]?) ∧
      (k = l.length ∨
        ((updateRowsFrom conf ts hl false l)[k - 1]?.map Row.hl_state) =
          (l[k - 1]?.map Row.hl_state)) ∧
      (∀ j, j + 1 < k →
        ((updateRowsFrom conf ts hl false l)[j]?.map Row.hl_state) ≠
          (l[j]?.map Row.hl_state)) := by
  induction l with
  | nil => intro hl h; exact absurd rfl h
  | cons r rs ih =>
    intro hl _
    by_cases hstop : (r.update conf hl ts).2 = r.hl_state
    · -- the first row's recomputed outgoing state is unchanged: stop at k = 1
      have hres : updateRowsFrom conf ts hl false (r :: rs) = (r.update conf hl ts).1 :: rs := by
        simp only [updateRowsFrom]
        rw [if_pos (Or.inr hstop)]
      refine ⟨1, le_rfl, by simp, by simp [hres], ?_, ?_, ?_⟩
      · intro i hi
        obtain ⟨i2, rfl⟩ := Nat.exists_eq_add_of_le hi
        rw [hres, Nat.add_comm 1 i2, List.getElem?_cons_succ, List.getElem?_cons_succ]
      · right
        rw [hres]
        have h2 : (r.update conf hl ts).1.hl_state = r.hl_state := hstop
        simp [h2]
      · intro j hj; omega
    · rcases rs with _ | ⟨r2, rs2⟩
      · -- out of rows: the single row is updated and the recursion stops
        have hres : updateRowsFrom conf ts hl false [r] = [(r.update conf hl ts).1] := by
          simp only [updateRowsFrom]
          rw [if_neg (by simp [hstop])]
        refine ⟨1, le_rfl, by simp, by simp [hres], ?_, Or.inl (by simp), ?_⟩
        · intro i hi
          rw [hres]
          rw [List.getElem?_eq_none (by simpa using hi), List.getElem?_eq_none (by simpa using hi)]
        · intro j hj; omega
      · -- the state changed: the propagation continues on the tail
        obtain ⟨k2, hk1, hk2, hklen, hksuf, hkstop, hkfirst⟩ :=
          ih ((r.update conf hl ts).2) (List.cons_ne_nil r2 rs2)
        have hres : updateRowsFrom conf ts hl false (r :: r2 :: rs2) =
            (r.update conf hl ts).1 ::
              updateRowsFrom conf ts ((r.update conf hl ts).2) false (r2 :: rs2) := by
          simp only [updateRowsFrom]
          rw [if_neg (by simp [hstop])]
        refine ⟨k2 + 1, by omega, ?_, ?_, ?_, ?_, ?_⟩
        · simp only [List.length_cons]
          simp only [List.length_cons] at hk2
          omega
        · rw [hres]
          simp only [List.length_cons, hklen]
        · intro i hi
          obtain ⟨i2, rfl⟩ := Nat.exists_eq_add_of_le (show 1 ≤ i by omega)
          rw [hres, Nat.add_comm 1 i2, List.getElem?_cons_succ, List.getElem?_cons_succ]
          exact hksuf i2 (by omega)
        · rcases hkstop with h | h
          · left; simp [h]
          · right
            rw [hres]
            have hk : k2 + 1 - 1 = (k2 - 1) + 1 := by omega
            rw [hk, List.getElem?_cons_succ, List.getElem?_cons_succ]
            exact h
        · intro j hj
          rcases j with _ | j2
          · rw [hres]
            simp only [List.getElem?_cons_zero, Option.map_some]
            intro hcontra
            apply hstop
            have : (r.update conf hl ts).1.hl_state = (r.update conf hl ts).2 := rfl
            rw [← this]
            exact Option.some.inj hcontra
          · rw [hres, List.getElem?_cons_succ, List.getElem?_cons_succ]
            exact hkfirst j2 (by omega)

/-- C7: for every edit at an existing row `y`, the highlight recomputation
touches finitely many rows (`k ≤ rows.length - y`, rows before `y` and from
`y + k` on are untouched) and stops at the first row at or after `y` whose
recomputed outgoing highlight state equals its outgoing state from before
the recomputation (every earlier recomputed row changed state), or when the
rows are exhausted. -/
theorem update_row_stops (conf : SynConf) (ts : Nat) (rows : List Row) (y : Nat)
    (hy : y < rows.length) :
    ∃ k, 1 ≤ k ∧ y + k ≤ rows.length ∧
      (update_row_list conf ts rows y false).length = rows.length ∧
      (∀ i, i < y → (update_row_list conf ts rows y false)[i]? = rows[i]?) ∧
      (∀ i, y + k ≤ i → (update_row_list conf ts rows y false)[i]? = rows[i]?) ∧
      (y + k = rows.length ∨
        ((update_row_list conf ts rows y false)[y + k - 1]?.map Row.hl_state) =
          (rows[y + k - 1]?.map Row.hl_state)) ∧
      (∀ j, y ≤ j → j + 1 < y + k →
        ((update_row_list conf ts rows y false)[j]?.map Row.hl_state) ≠
          (rows[j]?.map Row.hl_state)) := by
  have hdrop : rows.drop y ≠ [] := by
    intro hcontra
    rw [List.drop_eq_nil_iff] at hcontra
    omega
  obtain ⟨k, hk1, hk2, hklen, hksuf, hkstop, hkfirst⟩ :=
    updateRowsFrom_stops conf ts (rows.drop y)
      (if y > 0 then (rows[y - 1]?.map Row.hl_state).getD HlState.normal else HlState.normal)
      hdrop
  rw [List.length_drop] at hk2
  have htakelen : (rows.take y).length = y := by
    rw [List.length_take]; omega
  have hulist : update_row_list conf ts rows y false =
      rows.take y ++ updateRowsFrom conf ts
        (if y > 0 then (rows[y - 1]?.map Row.hl_state).getD HlState.normal else HlState.normal)
        false (rows.drop y) := rfl
  have hplen : (update_row_list conf ts rows y false).length = rows.length := by
    rw [hulist, List.length_append, htakelen, hklen, List.length_drop]
    omega
  have hleft : ∀ i, i < y → (update_row_list conf ts rows y false)[i]? = rows[i]? := by
    intro i hi
    rw [hulist, List.getElem?_append, if_pos (by omega : i < (rows.take y).length),
      List.getElem?_take, if_pos hi]
  have hright : ∀ i, y ≤ i →
      (update_row_list conf ts rows y false)[i]? =
        (updateRowsFrom conf ts
          (if y > 0 then (rows[y - 1]?.map Row.hl_state).getD HlState.normal else HlState.normal)
          false (rows.drop y))[i - y]? := by
    intro i hi
    rw [hulist, List.getElem?_append_right (by omega), htakelen]
  refine ⟨k, hk1, by omega, hplen, hleft, ?_, ?_, ?_⟩
  · intro i hi
    rw [hright i (by omega), hksuf (i - y) (by omega), List.getElem?_drop]
    congr 1
    omega
  · rcases hkstop with h | h
    · left; rw [List.length_drop] at h; omega
    · right
      rw [hright (y + k - 1) (by omega)]
      have : y + k - 1 - y = k - 1 := by omega
      rw [this, h, List.getElem?_drop]
      have hidx2 : y + (k - 1) = y + k - 1 := by omega
      rw [hidx2]
  · intro j hjy hjk
    rw [hright j hjy]
    have := hkfirst (j - y) (by omega)
    have hidx : (rows.drop y)[j - y]? = rows[j]? := by
      rw [List.getElem?_drop]
      congr 1
      omega
    rw [hidx] at this
    exact this

/-- C7, witness: the stopping theorem applied to a one-row document at
`y = 0`; the recomputation preserves the number of rows. -/
theorem update_row_stops_inst :
    (update_row_list {} 4 [Row.new [97]] 0 false).length = 1 := by
  obtain ⟨k, _, _, hlen, _⟩ := update_row_stops {} 4 [Row.new [97]] 0 (by decide)
  simpa using hlen

/-- C5: after `scroll` with a window of at least one row and one column,
the row offset satisfies `roff ≤ y ≤ roff + screen_rows - 1` and the column
offset satisfies `coff ≤ rx ≤ coff + screen_cols - 1`. -/
theorem scroll_keeps_cursor_visible (c : CursorState) (rx screen_rows screen_cols : Nat)
    (h1 : 1 ≤ screen_rows) (h2 : 1 ≤ screen_cols) :
    (c.scroll rx screen_rows screen_cols).roff ≤ c.y ∧
    c.y ≤ (c.scroll rx screen_rows screen_cols).roff + screen_rows - 1 ∧
    (c.scroll rx screen_rows screen_cols).coff ≤ rx ∧
    rx ≤ (c.scroll rx screen_rows screen_cols).coff + screen_cols - 1 := by
  simp only [CursorState.scroll, rustClamp]
  split_ifs <;> omega

/-- C5, witness: the scroll bounds at cursor `(x = 0, y = 5)` with offsets
`(roff = 9, coff = 7)`, render column 3 and a 2-by-2 window. -/
theorem scroll_keeps_cursor_visible_inst :
    ((⟨0, 5, 9, 7⟩ : CursorState).scroll 3 2 2).roff ≤ 5 ∧
    5 ≤ ((⟨0, 5, 9, 7⟩ : CursorState).scroll 3 2 2).roff + 2 - 1 ∧
    ((⟨0, 5, 9, 7⟩ : CursorState).scroll 3 2 2).coff ≤ 3 ∧
    3 ≤ ((⟨0, 5, 9, 7⟩ : CursorState).scroll 3 2 2).coff + 2 - 1 :=
  scroll_keeps_cursor_visible ⟨0, 5, 9, 7⟩ 3 2 2 (by decide) (by decide)

/-- C10: `is_empty` is true exactly when the document has at most one row
and the accumulated byte count is zero; with two or more rows it is false —
even if every row is empty — so the welcome-banner condition of `draw_rows`
never holds for such a document. -/
theorem is_empty_iff (e : Editor) :
    (e.is_empty = true ↔ e.rows.length ≤ 1 ∧ e.n_bytes = 0) ∧
    (2 ≤ e.rows.length → e.is_empty = false ∧ ∀ i, e.welcome_condition i = false) := by
  constructor
  · simp [Editor.is_empty]
  · intro h
    have hfalse : e.is_empty = false := by
      simp only [Editor.is_empty, decide_eq_false_iff_not]
      omega
    exact ⟨hfalse, fun i => by simp [Editor.welcome_condition, hfalse]⟩

/-- C10, witness: a two-row document whose rows are both empty is not
`is_empty`. -/
theorem is_empty_iff_inst :
    Editor.is_empty { rows := [Row.new [], Row.new []] } = false :=
  ((is_empty_iff { rows := [Row.new [], Row.new []] }).2 (by decide)).1

/-- C1, failing evaluation: loading the two bytes `"ab"` (no trailing
terminator) and saving without edits emits `"ab\n"`, not `"ab"` — the
trailing-byte test of `load` reads at the end-of-file offset, always finds
nothing and so always appends an extra empty row; a stream that does end in
a terminator still round-trips. -/
theorem load_save_appends_newline :
    (({} : Editor).load [97, 98]).save_content = [97, 98, 10] ∧
    (({} : Editor).load [97, 98]).save_content ≠ [97, 98] ∧
    (({} : Editor).load [97, 10, 98, 10]).save_content = [97, 10, 98, 10] := by
  decide

/-- C2, failing evaluation: loading the one-byte file `"a"` and pressing
Ctrl-R (`delete_current_row`) leaves `n_bytes = 1` while the rows hold zero
bytes — `chars.clear()` drops the row's bytes without decrementing
`n_bytes`, so the byte-count invariant breaks on a reachable state. -/
theorem delete_current_row_byte_count_mismatch :
    ((({} : Editor).load [97]).delete_current_row).n_bytes = 1 ∧
    (((({} : Editor).load [97]).delete_current_row).rows.map
      (fun r => r.chars.length)).sum = 0 := by
  decide

/-- C6, failing evaluation: inserting `'a'` into an empty unnamed document
and backward-deleting it at `x = 1` leaves a fully empty document with no
file name, yet `dirty = true` — `delete_char` consults `is_empty` before
decrementing `n_bytes`, so the stale count keeps `is_empty` false. -/
theorem delete_char_dirty_on_emptied_document :
    ((({} : Editor).insert_byte 97).delete_char).dirty = true ∧
    ((({} : Editor).insert_byte 97).delete_char).is_empty = true ∧
    ((({} : Editor).insert_byte 97).delete_char).file_name = none := by
  decide

/-- C8: backward-delete at `(y = 1, x = 0)` where row 0 is `"ab"` and row 1
is `"cd"` yields the single row `"abcd"`, moves the cursor to `(0, 2)`,
reduces the row count by one and sets dirty. -/
theorem delete_char_merges_rows :
    abcdEditor.delete_char.rows.map Row.chars = [[97, 98, 99, 100]] ∧
    abcdEditor.delete_char.cursor.y = 0 ∧
    abcdEditor.delete_char.cursor.x = 2 ∧
    abcdEditor.delete_char.rows.length + 1 = abcdEditor.rows.length ∧
    abcdEditor.delete_char.dirty = true := by
  decide

end TextEditor
